import Mathlib

/-!
Verification of the tvmasm assembly parser (source file src/ast2.rs).

The source is a chumsky parser-combinator grammar over a string, producing a
span-annotated AST of instructions plus accumulated diagnostics.  The shallow
embedding below models a parser as a function from the remaining character
list and the current byte offset to either a success (value, remaining input,
new offset, emitted diagnostics) or a failure carrying one diagnostic,
mirroring chumsky's rewind-on-failure semantics.  Machine integers are
modelled as Nat or Int with explicit range checks where the code checks them.

The external cell-construction collaborator (everscale-types) is modelled by
its interface: a cell is a list of raw bits, a builder stores the first
`bits` bits of a byte buffer and fails beyond the capacity
MAX_BIT_LEN = 1023 of a TVM cell (the value of the external constant
everscale_types::cell::MAX_BIT_LEN referenced by the source).
-/

namespace Ast2

/-- Source span: a half-open byte-offset range, mirroring chumsky SimpleSpan. -/
structure Span where
  start : Nat
  stop : Nat
deriving Repr, DecidableEq

/-- Errors of the slice-literal decoders, mirroring enum SliceError. -/
inductive SliceError where
  | nonAscii
  | invalidHex (c : Char)
  | invalidHexFull
  | invalidBin (c : Char)
  | tooLong
  | cellError
deriving Repr, DecidableEq

/-- An immutable cell holding raw bits, modelling the everscale-types Cell
(only the data bits; references are never used by this program). -/
structure Cell where
  bits : List Bool
deriving Repr, DecidableEq

/-- The external constant everscale_types::cell::MAX_BIT_LEN: a TVM cell
holds at most 1023 data bits. -/
def MAX_BIT_LEN : Nat := 1023

/-- The eight bits of one byte, most significant first. -/
def byteBits (b : Nat) : List Bool :=
  [b.testBit 7, b.testBit 6, b.testBit 5, b.testBit 4,
   b.testBit 3, b.testBit 2, b.testBit 1, b.testBit 0]

/-- The bit string of a byte buffer, most significant bit of each byte first. -/
def bytesToBits (bytes : List Nat) : List Bool :=
  (bytes.map byteBits).flatten

/-- Models CellBuilder::new followed by store_raw(bytes, bits) followed by
build(): stores the first `bits` bits of the buffer, failing when the bit
count exceeds the cell capacity or the buffer is too short (the error is
converted to SliceError::CellError by the source's question-mark operator). -/
def store_raw_build (bytes : List Nat) (bits : Nat) : Except SliceError Cell :=
  if bits ≤ MAX_BIT_LEN ∧ bits ≤ 8 * bytes.length then
    .ok ⟨(bytesToBits bytes).take bits⟩
  else
    .error .cellError

/-- Mirrors fn hex_char in parse_hex_slice: the value of one hex digit. -/
def hex_char (c : Char) : Except SliceError Nat :=
  if 'A' ≤ c ∧ c ≤ 'F' then .ok (c.toNat - 'A'.toNat + 10)
  else if 'a' ≤ c ∧ c ≤ 'f' then .ok (c.toNat - 'a'.toNat + 10)
  else if '0' ≤ c ∧ c ≤ '9' then .ok (c.toNat - '0'.toNat)
  else .error (.invalidHex c)

/-- Value of one hex digit as accepted by the hex crate's decode. -/
def hexDigit? (c : Char) : Option Nat :=
  if 'A' ≤ c ∧ c ≤ 'F' then some (c.toNat - 'A'.toNat + 10)
  else if 'a' ≤ c ∧ c ≤ 'f' then some (c.toNat - 'a'.toNat + 10)
  else if '0' ≤ c ∧ c ≤ '9' then some (c.toNat - '0'.toNat)
  else none

/-- Models hex::decode on an even-length digit run: pairs of hex digits to
bytes; any non-digit yields the FromHexError-backed SliceError variant. -/
def hexDecode : List Char → Except SliceError (List Nat)
  | [] => .ok []
  | [_] => .error .invalidHexFull
  | a :: b :: rest =>
    match hexDigit? a, hexDigit? b with
    | some x, some y => (hexDecode rest).map (fun t => (x * 16 + y) :: t)
    | _, _ => .error .invalidHexFull

/-- Trailing-zero count of the low `fuel` bits of a byte. -/
def tzAux : Nat → Nat → Nat
  | 0, _ => 0
  | fuel + 1, b => if b % 2 = 1 then 0 else 1 + tzAux fuel (b / 2)

/-- Models u8::trailing_zeros (8 for the zero byte). -/
def tz8 (b : Nat) : Nat :=
  if b = 0 then 8 else tzAux 8 b

/-- The backward byte scan of the tag mode of parse_hex_slice, on the
reversed byte list: subtract 8 per fully-zero byte, and at the first
non-zero byte subtract one plus its trailing-zero count and stop. -/
def tagScanAux : List Nat → Nat → Nat
  | [], bits => bits
  | b :: rest, bits =>
    if b = 0 then tagScanAux rest (bits - 8) else bits - (1 + tz8 b)

/-- The tag-mode bit count computed by parse_hex_slice: start from eight
bits per byte and run the backward scan. -/
def tag_bits (bytes : List Nat) : Nat :=
  tagScanAux bytes.reverse (8 * bytes.length)

/-- The backward scan carried out in exact integer arithmetic; the u16
counter of the source computes the same values exactly when this never
becomes negative. -/
def tagScanAuxZ : List Nat → Int → Int
  | [], bits => bits
  | b :: rest, bits =>
    if b = 0 then tagScanAuxZ rest (bits - 8) else bits - (1 + tz8 b)

/-- Exact-arithmetic version of tag_bits. -/
def tag_bitsZ (bytes : List Nat) : Int :=
  tagScanAuxZ bytes.reverse (8 * bytes.length)

/-- Mirrors fn parse_hex_slice: ASCII check, optional trailing underscore
(tag mode), odd trailing digit as a high half-byte, 128-byte cap, hex
decode, tag-mode bit-count recovery, and cell construction. -/
def parse_hex_slice (s : List Char) : Except SliceError Cell := do
  if ¬ s.all (fun c => c.toNat ≤ 127) then
    throw .nonAscii
  let (s, with_tag) :=
    if s.getLast? = some '_' then (s.dropLast, true) else (s, false)
  let (s, half_byte) ←
    if s.length % 2 ≠ 0 then
      match s.getLast? with
      | some last => do
        let h ← hex_char last
        pure (s.dropLast, some h)
      | none => pure (s, (none : Option Nat))
    else
      pure (s, (none : Option Nat))
  if s.length > 128 * 2 then
    throw .tooLong
  let bytes ← hexDecode s
  let bits := 8 * bytes.length
  let (bytes, bits) :=
    match half_byte with
    | some h => (bytes ++ [h * 16], bits + 4)
    | none => (bytes, bits)
  let bits := if with_tag then tag_bits bytes else bits
  store_raw_build bytes bits

/-- Result of parse_bin_slice; the panicked outcome models an out-of-bounds
write into the stack byte buffer aborting the program. -/
inductive SliceRes where
  | ok (c : Cell)
  | error (e : SliceError)
  | panicked
deriving Repr, DecidableEq

/-- Result of the character loop of parse_bin_slice. -/
inductive BinRes where
  | done (bits : Nat) (bytes : List Nat)
  | err (e : SliceError)
  | panicked
deriving Repr, DecidableEq

/-- The character loop of parse_bin_slice: each character must be 0 or 1 and
is packed most-significant-bit-first into the 128-byte buffer; the write
is modelled with an explicit bounds check (out of bounds would be a Rust
panic), and after each increment the MAX_BIT_LEN cap is checked. -/
def binLoop : List Char → Nat → List Nat → BinRes
  | [], bits, bytes => .done bits bytes
  | c :: rest, bits, bytes =>
    match (if c = '0' then some 0 else if c = '1' then some 1 else none) with
    | none => .err (.invalidBin c)
    | some v =>
      if h : bits / 8 < bytes.length then
        let b := bytes.get ⟨bits / 8, h⟩
        let bytes := bytes.set (bits / 8) (b ||| (v <<< (7 - bits % 8)))
        let bits := bits + 1
        if bits > MAX_BIT_LEN then .err .tooLong else binLoop rest bits bytes
  else .panicked

/-- Mirrors fn parse_bin_slice: run the character loop on a zeroed 128-byte
buffer, then build a cell of exactly the counted bits. -/
def parse_bin_slice (s : List Char) : SliceRes :=
  match binLoop s 0 (List.replicate 128 0) with
  | .done bits bytes =>
    match store_raw_build bytes bits with
    | .ok c => .ok c
    | .error e => .error e
  | .err e => .error e
  | .panicked => .panicked

/-- A run of parse_bin_slice that did not hit the (unreachable) out-of-bounds
write: the loop returned normally or with a decoding error. -/
def SliceRes.completes : SliceRes → Bool
  | .panicked => false
  | _ => true

/-- Completion of the character loop itself. -/
def BinRes.completes : BinRes → Bool
  | .panicked => false
  | _ => true

/-- Specification-level meaning of the completion-tag convention: the index
of the last set bit of the byte buffer's bit string (0 when all bits are
zero), i.e. the number of data bits in front of the completion bit. -/
def lastSetBitIdx (bytes : List Nat) : Nat :=
  (((bytesToBits bytes).reverse).dropWhile (fun x => !x)).length - 1

/-- Parser diagnostics, mirroring enum ParserError.  The boxed inner error
payloads of the register and slice variants are dropped; the span and, for
the generic variant, the expected set (none standing for end of input) and
the found character are kept. -/
inductive ParserError where
  | expectedFound (span : Span) (expected : List (Option Char)) (found : Option Char)
  | invalidInt (span : Span)
  | invalidStackRegister (span : Span)
  | invalidControlRegister (span : Span)
  | invalidSlice (span : Span)
deriving Repr, DecidableEq

/-- Outcome of running one parser: success with the value, the remaining
input, the new offset and the diagnostics emitted by recovery, or failure
with one diagnostic (chumsky rewinds the input on failure, so a failure
keeps no remainder, and the emitted diagnostics of a failed attempt are
discarded). -/
inductive PResult (α : Type) where
  | ok (val : α) (rest : List Char) (pos : Nat) (errs : List ParserError)
  | fail (e : ParserError)
deriving Repr, DecidableEq

/-- A parser: remaining input and current offset in, result out. -/
abbrev P (α : Type) : Type := List Char → Nat → PResult α

variable {α β : Type}

/-- Skip a whitespace run (chumsky's padding, Rust char::is_whitespace). -/
def skipWs (cs : List Char) (pos : Nat) : List Char × Nat :=
  (cs.dropWhile Char.isWhitespace, pos + (cs.takeWhile Char.isWhitespace).length)

/-- chumsky map. -/
def pmap (f : α → β) (p : P α) : P β := fun cs pos =>
  match p cs pos with
  | .ok v rest pos2 errs => .ok (f v) rest pos2 errs
  | .fail e => .fail e

/-- chumsky padded: the parser with ignored whitespace on either side. -/
def ppadded (p : P α) : P α := fun cs pos =>
  let (cs1, pos1) := skipWs cs pos
  match p cs1 pos1 with
  | .ok v rest pos2 errs =>
    let (cs3, pos3) := skipWs rest pos2
    .ok v cs3 pos3 errs
  | .fail e => .fail e

/-- chumsky then: sequencing, accumulating emitted diagnostics in order. -/
def pthen (p : P α) (q : P β) : P (α × β) := fun cs pos =>
  match p cs pos with
  | .ok v rest pos2 errs =>
    match q rest pos2 with
    | .ok w rest2 pos3 errs2 => .ok (v, w) rest2 pos3 (errs ++ errs2)
    | .fail e => .fail e
  | .fail e => .fail e

/-- chumsky ignore_then. -/
def pignoreThen (p : P α) (q : P β) : P β := pmap Prod.snd (pthen p q)

/-- chumsky then_ignore. -/
def pthenIgnore (p : P α) (q : P β) : P α := pmap Prod.fst (pthen p q)

/-- Ordered choice between two alternatives: chumsky rewinds the failed
first alternative and tries the second; when both fail, the second failure
is the one reported (no claim depends on which alternative's failure a
choice reports, nor on the merged expected sets). -/
def porelse (p q : P α) : P α := fun cs pos =>
  match p cs pos with
  | .fail _ => q cs pos
  | r => r

/-- chumsky just(c). -/
def pjust (c : Char) : P Unit := fun cs pos =>
  match cs with
  | c2 :: rest =>
    if c2 = c then .ok () rest (pos + 1) []
    else .fail (.expectedFound ⟨pos, pos + 1⟩ [some c] (some c2))
  | [] => .fail (.expectedFound ⟨pos, pos⟩ [some c] none)

/-- chumsky just on a two-character literal such as the 0x and x-brace
prefixes. -/
def pjust2 (a b : Char) : P Unit :=
  pignoreThen (pjust a) (pjust b)

/-- chumsky end(): succeeds exactly at end of input. -/
def pend : P Unit := fun cs pos =>
  match cs with
  | [] => .ok () [] pos []
  | c :: _ => .fail (.expectedFound ⟨pos, pos + 1⟩ [none] (some c))

/-- A possibly empty run of characters satisfying f, consumed and returned
(chumsky any().filter(f).repeated() with to_slice where needed). -/
def pmanyChars (f : Char → Bool) : P (List Char) := fun cs pos =>
  .ok (cs.takeWhile f) (cs.dropWhile f) (pos + (cs.takeWhile f).length) []

/-- chumsky try_map: validate the parsed value against the span it was
parsed from, turning a validation error into a parse failure. -/
def ptryMap (f : α → Span → Except ParserError β) (p : P α) : P β := fun cs pos =>
  match p cs pos with
  | .ok v rest pos2 errs =>
    match f v ⟨pos, pos2⟩ with
    | .ok w => .ok w rest pos2 errs
    | .error e => .fail e
  | .fail e => .fail e

/-- chumsky recover_with(via_parser(fb)): on failure rewind, run the
fallback parser, and emit the original diagnostic; if the fallback also
fails the original failure stands. -/
def precoverVia (p fb : P α) : P α := fun cs pos =>
  match p cs pos with
  | .fail e =>
    match fb cs pos with
    | .ok v rest pos2 errs => .ok v rest pos2 (e :: errs)
    | .fail _ => .fail e
  | r => r

/-- The retry loop of chumsky skip_then_retry_until: give up when the until
parser matches or input is exhausted, otherwise skip one character and
retry p; fuelled (the fuel bounds the number of skipped characters). -/
def pretryAux (p : P α) (untl : P Unit) : Nat → P α
  | 0 => fun _ pos => .fail (.expectedFound ⟨pos, pos⟩ [] none)
  | fuel + 1 => fun cs pos =>
    match untl cs pos with
    | .ok _ _ _ _ => .fail (.expectedFound ⟨pos, pos⟩ [] none)
    | .fail _ =>
      match cs with
      | [] => .fail (.expectedFound ⟨pos, pos⟩ [] none)
      | _ :: rest =>
        match p rest (pos + 1) with
        | .ok v rest2 pos2 errs => .ok v rest2 pos2 errs
        | .fail _ => pretryAux p untl fuel rest (pos + 1)

/-- chumsky recover_with(skip_then_retry_until(any().ignored(), untl)):
the original diagnostic is emitted when the retry succeeds. -/
def precoverSkipRetry (p : P α) (untl : P Unit) (fuel : Nat) : P α :=
  fun cs pos =>
    match p cs pos with
    | .ok v rest pos2 errs => .ok v rest pos2 errs
    | .fail e =>
      match pretryAux p untl fuel cs pos with
      | .ok v rest pos2 errs => .ok v rest pos2 (e :: errs)
      | .fail _ => .fail e

/-- chumsky repeated().collect(): zero or more items, stopping (and
rewinding the failed attempt, discarding its diagnostics) at the first
failure; never fails itself.  Fuelled: the fuel bounds the iteration
count, and the initial fuel chosen by fn parse is always sufficient since
every item consumes at least one character. -/
def prepeated (p : P α) :
    Nat → List Char → Nat → List α × List Char × Nat × List ParserError
  | 0, cs, pos => ([], cs, pos, [])
  | fuel + 1, cs, pos =>
    match p cs pos with
    | .fail _ => ([], cs, pos, [])
    | .ok v rest pos2 errs =>
      let (vs, rest2, pos3, errs2) := prepeated p fuel rest pos2
      (v :: vs, rest2, pos3, errs ++ errs2)

/-- The tail of chumsky separated_by: (separator, item) pairs, rewinding
both and stopping when either fails. -/
def psepTail (item : P α) (sep : P Unit) :
    Nat → List Char → Nat → List α × List Char × Nat × List ParserError
  | 0, cs, pos => ([], cs, pos, [])
  | fuel + 1, cs, pos =>
    match sep cs pos with
    | .fail _ => ([], cs, pos, [])
    | .ok _ rest pos2 errs =>
      match item rest pos2 with
      | .fail _ => ([], cs, pos, [])
      | .ok v rest2 pos3 errs2 =>
        let (vs, rest3, pos4, errs3) := psepTail item sep fuel rest2 pos3
        (v :: vs, rest3, pos4, errs ++ errs2 ++ errs3)

/-- chumsky separated_by(sep).collect(): zero or more items. -/
def psepBy (item : P α) (sep : P Unit) (fuel : Nat) (cs : List Char)
    (pos : Nat) : List α × List Char × Nat × List ParserError :=
  match item cs pos with
  | .fail _ => ([], cs, pos, [])
  | .ok v rest pos2 errs =>
    let (vs, rest2, pos3, errs2) := psepTail item sep fuel rest pos2
    (v :: vs, rest2, pos3, errs ++ errs2)

/-- Numeric value of a digit character (Rust char::to_digit without the
radix bound). -/
def digitVal (c : Char) : Nat :=
  if c.isDigit then c.toNat - '0'.toNat
  else if 'a' ≤ c ∧ c ≤ 'z' then c.toNat - 'a'.toNat + 10
  else if 'A' ≤ c ∧ c ≤ 'Z' then c.toNat - 'A'.toNat + 10
  else 0

/-- Rust char::is_digit(radix). -/
def isDigitRadix (radix : Nat) (c : Char) : Bool :=
  (c.isDigit || c.isAlpha) && digitVal c < radix

/-- chumsky text::int(radix): one non-zero digit of the radix followed by a
digit run, or the single digit 0 (leading zeros are not absorbed). -/
def intToken (radix : Nat) : P (List Char) := fun cs pos =>
  match cs with
  | [] => .fail (.expectedFound ⟨pos, pos⟩ [] none)
  | c :: rest =>
    if isDigitRadix radix c ∧ c ≠ '0' then
      let t := rest.takeWhile (isDigitRadix radix)
      .ok (c :: t) (rest.dropWhile (isDigitRadix radix)) (pos + 1 + t.length) []
    else if c = '0' then .ok ['0'] rest (pos + 1) []
    else .fail (.expectedFound ⟨pos, pos + 1⟩ [] (some c))

/-- Value of a digit run in a radix: what from_str_radix computes on it. -/
def foldVal (radix : Nat) (ds : List Char) : Nat :=
  ds.foldl (fun acc c => acc * radix + digitVal c) 0

/-- True when the list is empty or its first character fails f: the
boundary condition under which a token run stops exactly at the list
border. -/
def headNot (f : Char → Bool) (cs : List Char) : Bool :=
  match cs with
  | [] => true
  | c :: _ => !f c

mutual

/-- One parsed instruction, mirroring struct Instr: source span, mnemonic
and arguments. -/
inductive Instr where
  | mk (span : Span) (ident : String) (args : List InstrArg)

/-- One parsed argument with its span, mirroring struct InstrArg. -/
inductive InstrArg where
  | mk (span : Span) (value : InstrArgValue)

/-- Argument payload, mirroring enum InstrArgValue. -/
inductive InstrArgValue where
  | nat (n : Int)
  | sreg (n : Int)
  | creg (n : Nat)
  | slice (c : Cell)
  | block (instrs : List Instr)
  | invalid

end

/-- Mnemonic text of an instruction. -/
def Instr.ident : Instr → String
  | .mk _ id _ => id

/-- Arguments of an instruction. -/
def Instr.args : Instr → List InstrArg
  | .mk _ _ args => args

/-- Payload of an argument. -/
def InstrArg.value : InstrArg → InstrArgValue
  | .mk _ v => v

/-- Mirrors fn is_instr_ident_char: uppercase ASCII letter, ASCII digit,
hash or underscore; the extended set further allows a colon. -/
def is_instr_ident_char (c : Char) (ext : Bool) : Bool :=
  c.isUpper || c.isDigit || c == '#' || c == '_' || (ext && c == ':')

/-- Mirrors fn instr_ident: one initial identifier character then a run of
extended identifier characters, yielding the consumed slice. -/
def instr_ident : P (List Char) := fun cs pos =>
  match cs with
  | [] => .fail (.expectedFound ⟨pos, pos⟩ [] none)
  | c :: rest =>
    if is_instr_ident_char c false then
      let t := rest.takeWhile (fun c2 => is_instr_ident_char c2 true)
      .ok (c :: t) (rest.dropWhile (fun c2 => is_instr_ident_char c2 true))
        (pos + 1 + t.length) []
    else .fail (.expectedFound ⟨pos, pos + 1⟩ [] (some c))

/-- Mirrors fn parse_int inside fn nat: BigInt::from_str_radix on the digit
run (the arbitrary-precision value is an Int; on the runs produced by
text::int the conversion cannot fail). -/
def parse_int (ds : List Char) (radix : Nat) (span : Span) :
    Except ParserError Int :=
  if ds ≠ [] ∧ ds.all (isDigitRadix radix) then .ok (foldVal radix ds)
  else .error (.invalidInt span)

/-- The unsigned part of fn nat: 0x plus hex digits, 0b plus binary digits,
or bare decimal digits, in that order. -/
def number : P Int :=
  porelse
    (pignoreThen (pjust2 '0' 'x')
      (ptryMap (fun ds span => parse_int ds 16 span) (intToken 16)))
    (porelse
      (pignoreThen (pjust2 '0' 'b')
        (ptryMap (fun ds span => parse_int ds 2 span) (intToken 2)))
      (ptryMap (fun ds span => parse_int ds 10 span) (intToken 10)))

/-- Mirrors fn nat: an optional leading minus negating the number. -/
def nat : P Int :=
  porelse (pmap Neg.neg (pignoreThen (pjust '-') number)) number

/-- Recovery run shared by the register parsers: everything up to the next
comma or whitespace. -/
def until_next_arg : P (List Char) :=
  pmanyChars (fun c => !(c == ',') && !c.isWhitespace)

/-- Recovery of the parenthesized stack-register form: everything up to the
next closing parenthesis or line break, plus the parenthesis if present. -/
def until_eof_or_paren : P Unit := fun cs pos =>
  let t := cs.takeWhile (fun c => !(c == ')') && !(c == '\n'))
  match cs.dropWhile (fun c => !(c == ')') && !(c == '\n')) with
  | ')' :: rest2 => .ok () rest2 (pos + t.length + 1) []
  | rest => .ok () rest (pos + t.length) []

/-- The decimal index of fn stack_register: text::int(10) then
i16::from_str (the token is unsigned, so conversion succeeds exactly for
values up to 32767). -/
def sreg_idx : P Int :=
  ptryMap (fun ds span =>
    if foldVal 10 ds ≤ 32767 then .ok (foldVal 10 ds : Int)
    else .error (.invalidStackRegister span)) (intToken 10)

/-- Mirrors fn stack_register: prefix s, then either the parenthesized
negative form (with its own recovery to none inside the parentheses) or
the bare index, the whole choice recovered to none by consuming up to the
next comma or whitespace. -/
def stack_register : P (Option Int) :=
  pignoreThen (pjust 's')
    (precoverVia
      (porelse
        (pignoreThen (pjust '(')
          (precoverVia
            (pthenIgnore
              (pmap (fun n => some (-n)) (pignoreThen (pjust '-') sreg_idx))
              (pjust ')'))
            (pmap (fun _ => none) until_eof_or_paren)))
        (pmap some sreg_idx))
      (pmap (fun _ => none) until_next_arg))

/-- The index of fn control_register: text::int(10), u8::from_str, and the
range check admitting exactly 0 to 5 and 7; recovered to none by consuming
to the next comma or whitespace. -/
def creg_idx : P (Option Nat) :=
  precoverVia
    (ptryMap (fun ds span =>
      if foldVal 10 ds ≤ 255 then
        if foldVal 10 ds ≤ 5 ∨ foldVal 10 ds = 7 then .ok (some (foldVal 10 ds))
        else .error (.invalidControlRegister span)
      else .error (.invalidControlRegister span)) (intToken 10))
    (pmap (fun _ => none) until_next_arg)

/-- Mirrors fn control_register: prefix c then the recovered index. -/
def control_register : P (Option Nat) :=
  pignoreThen (pjust 'c') creg_idx

/-- The slice content characters: anything but a closing brace or
whitespace (also the class consumed by content_recovery). -/
def sliceContentChar (c : Char) : Bool :=
  !(c == '\x7d') && !c.isWhitespace

/-- Mirrors braces_recovery in fn cell_slice: skip to the next closing
brace or line break, consuming the brace if present. -/
def braces_recovery : P Unit := fun cs pos =>
  let t := cs.takeWhile (fun c => !(c == '\x7d') && !(c == '\n'))
  match cs.dropWhile (fun c => !(c == '\x7d') && !(c == '\n')) with
  | '\x7d' :: rest2 => .ok () rest2 (pos + t.length + 1) []
  | rest => .ok () rest (pos + t.length) []

/-- parse_hex_slice adapted to the common decoder result type used by
make_slice (the hex decoder has no panicking path). -/
def parse_hex_slice_res (s : List Char) : SliceRes :=
  match parse_hex_slice s with
  | .ok c => .ok c
  | .error e => .error e

/-- Mirrors the make_slice_parser closure of fn cell_slice: the prefix
letter and opening brace, the decoded content (recovered to none over the
same character class on a decode error), and the closing brace (recovered
by braces_recovery, discarding the decoded value).  A panicking decode is
mapped to a parse failure; the bin decoder never panics. -/
def make_slice (c1 : Char) (decode : List Char → SliceRes) :
    P (Option Cell) :=
  pmap (fun vt => if vt.2 then vt.1 else none)
    (pthen
      (pignoreThen (pjust2 c1 '\x7b')
        (precoverVia
          (ptryMap (fun ds span =>
            match decode ds with
            | .ok c => Except.ok (some c)
            | _ => Except.error (ParserError.invalidSlice span))
            (pmanyChars sliceContentChar))
          (pmap (fun _ => none) (pmanyChars sliceContentChar))))
      (precoverVia (pmap (fun _ => true) (pjust '\x7d'))
        (pmap (fun _ => false) braces_recovery)))

/-- Mirrors fn cell_slice: the hex form then the binary form. -/
def cell_slice : P (Option Cell) :=
  porelse (make_slice 'x' parse_hex_slice_res) (make_slice 'b' parse_bin_slice)

/-- chumsky text::newline(): one Unicode line break (or the two-character
carriage-return line-feed). -/
def pnewline : P Unit := fun cs pos =>
  match cs with
  | '\r' :: '\n' :: rest => .ok () rest (pos + 2) []
  | c :: rest =>
    if c = '\n' ∨ c = '\r' ∨ c = '\x0b' ∨ c = '\x0c' ∨ c.toNat = 133
        ∨ c.toNat = 8232 ∨ c.toNat = 8233 then
      .ok () rest (pos + 1) []
    else .fail (.expectedFound ⟨pos, pos + 1⟩ [] (some c))
  | [] => .fail (.expectedFound ⟨pos, pos⟩ [] none)

/-- The argument separator of fn instr: a padded comma, recovered by
skipping to the next comma (consuming it) or line break (giving up). -/
def psep (fuel : Nat) : P Unit :=
  precoverSkipRetry (ppadded (pjust ','))
    (porelse (pjust ',') pnewline) fuel

/-- The closing delimiter of fn cont_block with its two recoveries: accept
end of input for a missing brace, and otherwise skip forward, retrying,
until a brace or end of input. -/
def pclose (fuel : Nat) : P Unit :=
  precoverSkipRetry (precoverVia (pjust '\x7d') pend) pend fuel

/-- Mirrors fn cont_block: opening brace, padded instructions repeated,
recovered closing delimiter. -/
def cont_block (pinstr : P Instr) (fuel : Nat) : P (List Instr) :=
  fun cs pos =>
    match pjust '\x7b' cs pos with
    | .fail e => .fail e
    | .ok _ rest pos2 errs =>
      let (instrs, rest2, pos3, errs2) := prepeated (ppadded pinstr) fuel rest pos2
      match pclose fuel rest2 pos3 with
      | .ok _ rest3 pos4 errs3 => .ok instrs rest3 pos4 (errs ++ errs2 ++ errs3)
      | .fail e => .fail e

/-- The instr_arg choice of fn instr: numeric literal, stack register,
control register, continuation block, bit-string slice, in that order; the
register and slice forms recover to Invalid. -/
def instr_arg_value (pinstr : P Instr) (fuel : Nat) : P InstrArgValue :=
  porelse (pmap InstrArgValue.nat nat)
    (porelse
      (pmap (fun o => (o.map InstrArgValue.sreg).getD .invalid) stack_register)
      (porelse
        (pmap (fun o => (o.map InstrArgValue.creg).getD .invalid) control_register)
        (porelse (pmap InstrArgValue.block (cont_block pinstr fuel))
          (pmap (fun o => (o.map InstrArgValue.slice).getD .invalid) cell_slice))))

/-- The instr_arg choice with its span attached (chumsky map_with). -/
def instr_arg (pinstr : P Instr) (fuel : Nat) : P InstrArg := fun cs pos =>
  match instr_arg_value pinstr fuel cs pos with
  | .ok v rest pos2 errs => .ok (.mk ⟨pos, pos2⟩ v) rest pos2 errs
  | .fail e => .fail e

/-- Mirrors fn instr: padded mnemonic then the comma-separated argument
list, with the whole consumed range as span.  Fuelled; the fuel decreases
at each block-nesting level. -/
def instr : Nat → P Instr
  | 0 => fun _ pos => .fail (.expectedFound ⟨pos, pos⟩ [] none)
  | fuel + 1 => fun cs pos =>
    match ppadded instr_ident cs pos with
    | .fail e => .fail e
    | .ok id rest pos2 errs =>
      let (args, rest2, pos3, errs2) :=
        psepBy (instr_arg (instr fuel) fuel) (psep fuel) fuel rest pos2
      .ok (.mk ⟨pos, pos3⟩ (String.mk id) args) rest2 pos3 (errs ++ errs2)

/-- Mirrors fn parser: padded instructions repeated to exhaustion. -/
def parser (fuel : Nat) :
    List Char → Nat → List Instr × List Char × Nat × List ParserError :=
  prepeated (ppadded (instr fuel)) fuel

/-- Mirrors chumsky ParseResult: the optional output and the diagnostics. -/
structure ParseRes where
  output : Option (List Instr)
  errors : List ParserError

/-- Mirrors fn parse: chumsky's Parser::parse runs the parser followed by
an implicit end(); when input remains, the failure is pushed onto the
diagnostics and the output is none.  The initial fuel, two more than the
input length, is sufficient for every input since every instruction,
nesting level and argument consumes input. -/
def parse (s : String) : ParseRes :=
  let fuel := s.data.length + 2
  let (instrs, rest, pos, errs) := parser fuel s.data 0
  match rest with
  | [] => ⟨some instrs, errs⟩
  | c :: _ => ⟨none, errs ++ [.expectedFound ⟨pos, pos + 1⟩ [none] (some c)]⟩

/-- The mnemonic invariant: non-empty, initial character from the base
identifier class, every further character from the extended class. -/
def identOk (id : String) : Prop :=
  match id.data with
  | [] => False
  | c :: rest =>
    is_instr_ident_char c false = true
      ∧ ∀ c2 ∈ rest, is_instr_ident_char c2 true = true

/-- Validity of an instruction tree: its mnemonic satisfies the identifier
invariant, recursively in every nested block argument. -/
inductive ValidInstr : Instr → Prop where
  | mk (span : Span) (id : String) (args : List InstrArg) :
      identOk id →
      (∀ a ∈ args, ∀ bs, a.value = .block bs → ∀ i ∈ bs, ValidInstr i) →
      ValidInstr (.mk span id args)

/-- Soundness of an instruction parser: every instruction it returns is a
valid tree. -/
def SoundP (p : P Instr) : Prop :=
  ∀ (cs : List Char) (pos : Nat) (i : Instr) (rest : List Char) (pos2 : Nat)
    (errs : List ParserError), p cs pos = .ok i rest pos2 errs → ValidInstr i

section ScanLemmas

lemma byteBits_length (b : Nat) : (byteBits b).length = 8 := rfl

lemma bytesToBits_length (bytes : List Nat) :
    (bytesToBits bytes).length = 8 * bytes.length := by
  induction bytes with
  | nil => rfl
  | cons b t ih =>
    simp [bytesToBits, List.flatten_cons, byteBits_length] at ih ⊢
    omega

lemma revBits_flatten_length (r : List Nat) :
    ((r.map (fun b => (byteBits b).reverse)).flatten).length = 8 * r.length := by
  induction r with
  | nil => rfl
  | cons b t ih => simp [List.flatten_cons, ih, byteBits_length]; omega

set_option maxRecDepth 4096 in
lemma tz8_le_seven : ∀ b < 256, b ≠ 0 → tz8 b ≤ 7 := by decide

set_option maxRecDepth 4096 in
lemma byte_rev_dropWhile_length :
    ∀ b < 256, b ≠ 0 →
      (((byteBits b).reverse).dropWhile (fun x => !x)).length = 8 - tz8 b := by
  decide

lemma byteBits_zero : byteBits 0 = List.replicate 8 false := by decide

lemma dropWhile_replicate_false (n : Nat) (l : List Bool) :
    (List.replicate n false ++ l).dropWhile (fun x => !x) =
      l.dropWhile (fun x => !x) := by
  induction n with
  | zero => rfl
  | succ k ih => simp [List.replicate_succ]

lemma dropWhile_append_of_ne (p : Bool → Bool) (a l : List Bool)
    (h : a.dropWhile p ≠ []) :
    (a ++ l).dropWhile p = a.dropWhile p ++ l := by
  induction a with
  | nil => simp at h
  | cons x t ih =>
    by_cases hx : p x
    · simp only [List.cons_append, List.dropWhile_cons, hx, if_true] at h ⊢
      exact ih h
    · simp [List.dropWhile_cons, hx]

lemma tagScanAux_spec (r : List Nat) (hlt : ∀ b ∈ r, b < 256) :
    tagScanAux r (8 * r.length) =
      (((r.map (fun b => (byteBits b).reverse)).flatten).dropWhile
        (fun x => !x)).length - 1 := by
  induction r with
  | nil => rfl
  | cons b t ih =>
    have hb : b < 256 := hlt b (List.mem_cons_self ..)
    have ht : ∀ x ∈ t, x < 256 := fun x hx => hlt x (List.mem_cons_of_mem _ hx)
    by_cases hz : b = 0
    · subst hz
      have h8 : 8 * (0 :: t).length = 8 * t.length + 8 := by simp; omega
      rw [h8]
      have : tagScanAux (0 :: t) (8 * t.length + 8) = tagScanAux t (8 * t.length) := by
        simp [tagScanAux]
      rw [this, ih ht]
      simp only [List.map_cons, List.flatten_cons, byteBits_zero,
        List.reverse_replicate, dropWhile_replicate_false]
    · have htz : tz8 b ≤ 7 := tz8_le_seven b hb hz
      have hlen : (((byteBits b).reverse).dropWhile (fun x => !x)).length = 8 - tz8 b :=
        byte_rev_dropWhile_length b hb hz
      have hne : ((byteBits b).reverse).dropWhile (fun x => !x) ≠ [] := by
        intro hcon
        rw [hcon] at hlen
        simp at hlen
        omega
      have hL : tagScanAux (b :: t) (8 * (b :: t).length) =
          8 * t.length + 8 - (1 + tz8 b) := by
        simp only [tagScanAux, if_neg hz, List.length_cons]
        omega
      rw [hL]
      simp only [List.map_cons, List.flatten_cons,
        dropWhile_append_of_ne _ _ _ hne, List.length_append, hlen,
        revBits_flatten_length]
      omega

lemma bytesToBits_reverse (bytes : List Nat) :
    (bytesToBits bytes).reverse =
      ((bytes.reverse).map (fun b => (byteBits b).reverse)).flatten := by
  induction bytes with
  | nil => rfl
  | cons b t ih =>
    have : bytesToBits (b :: t) = byteBits b ++ bytesToBits t := by
      simp [bytesToBits, List.flatten_cons]
    rw [this, List.reverse_append, ih]
    simp [List.flatten_append]

lemma tag_bits_eq_lastSetBitIdx (bytes : List Nat)
    (hlt : ∀ b ∈ bytes, b < 256) : tag_bits bytes = lastSetBitIdx bytes := by
  have hlt' : ∀ b ∈ bytes.reverse, b < 256 := by
    intro b hb
    exact hlt b (List.mem_reverse.mp hb)
  have h := tagScanAux_spec bytes.reverse hlt'
  rw [List.length_reverse] at h
  unfold tag_bits lastSetBitIdx
  rw [h, bytesToBits_reverse]

lemma tagScanAuxZ_spec (r : List Nat) :
    ∀ bits : Nat, (∀ b ∈ r, b < 256) → 8 * r.length ≤ bits →
      tagScanAuxZ r bits = ((tagScanAux r bits : Nat) : Int)
        ∧ 0 ≤ tagScanAuxZ r bits := by
  induction r with
  | nil => intro bits _ _; exact ⟨rfl, Int.ofNat_nonneg bits⟩
  | cons b t ih =>
    intro bits hlt hle
    have hb : b < 256 := hlt b (List.mem_cons_self ..)
    have ht : ∀ x ∈ t, x < 256 := fun x hx => hlt x (List.mem_cons_of_mem _ hx)
    have hlen8 : 8 * t.length + 8 ≤ bits := by
      simp only [List.length_cons] at hle
      omega
    by_cases hz : b = 0
    · subst hz
      have hcast : ((bits : Int) - 8) = ((bits - 8 : Nat) : Int) := by omega
      obtain ⟨ih1, ih2⟩ := ih (bits - 8) ht (by omega)
      constructor
      · simp only [tagScanAuxZ, tagScanAux, if_pos rfl, hcast]
        exact ih1
      · simp only [tagScanAuxZ, if_pos rfl, hcast]
        exact ih2
    · have htz : tz8 b ≤ 7 := tz8_le_seven b hb hz
      constructor
      · simp only [tagScanAuxZ, tagScanAux, if_neg hz]
        omega
      · simp only [tagScanAuxZ, if_neg hz]
        omega

lemma tagScanAux_allzero (r : List Nat) :
    ∀ bits : Nat, (∀ b ∈ r, b = 0) → 8 * r.length ≤ bits →
      tagScanAux r bits = bits - 8 * r.length := by
  induction r with
  | nil => intro bits _ _; simp [tagScanAux]
  | cons b t ih =>
    intro bits hz hle
    have hb : b = 0 := hz b (List.mem_cons_self ..)
    subst hb
    have ht : ∀ x ∈ t, x = 0 := fun x hx => hz x (List.mem_cons_of_mem _ hx)
    have hlen8 : 8 * t.length + 8 ≤ bits := by
      simp only [List.length_cons] at hle
      omega
    have hstep : tagScanAux (0 :: t) bits = tagScanAux t (bits - 8) := by
      simp [tagScanAux]
    rw [hstep, ih (bits - 8) ht (by omega)]
    simp only [List.length_cons]
    omega

end ScanLemmas

section BinLemmas

lemma binLoop_completes (cs : List Char) :
    ∀ (bits : Nat) (bytes : List Nat), bits ≤ MAX_BIT_LEN → bytes.length = 128 →
      (binLoop cs bits bytes).completes = true := by
  induction cs with
  | nil => intro bits bytes _ _; rfl
  | cons c rest ih =>
    intro bits bytes hbits hlen
    have hdiv : bits / 8 < bytes.length := by
      rw [hlen]
      have : bits ≤ 1023 := hbits
      omega
    simp only [binLoop]
    rcases hv : (if c = '0' then some 0 else if c = '1' then some 1 else none) with _ | v
    · rfl
    · simp only [dif_pos hdiv]
      by_cases hcap : bits + 1 > MAX_BIT_LEN
      · simp [hcap]
        rfl
      · simp only [if_neg hcap]
        exact ih (bits + 1) _ (by unfold MAX_BIT_LEN at hcap ⊢; omega)
          (by rw [List.length_set]; exact hlen)

lemma binLoop_ok (cs : List Char) :
    ∀ (bits : Nat) (bytes : List Nat), (∀ c ∈ cs, c = '0' ∨ c = '1') →
      bytes.length = 128 → bits + cs.length ≤ 1023 →
      ∃ bytes2, binLoop cs bits bytes = .done (bits + cs.length) bytes2
        ∧ bytes2.length = 128 := by
  induction cs with
  | nil =>
    intro bits bytes _ hlen _
    exact ⟨bytes, by simp [binLoop], hlen⟩
  | cons c rest ih =>
    intro bits bytes h01 hlen hcap
    have hc : c = '0' ∨ c = '1' := h01 c (List.mem_cons_self ..)
    have hrest : ∀ x ∈ rest, x = '0' ∨ x = '1' :=
      fun x hx => h01 x (List.mem_cons_of_mem _ hx)
    have hlist : (c :: rest).length = rest.length + 1 := rfl
    rw [hlist] at hcap
    have hdiv : bits / 8 < bytes.length := by rw [hlen]; omega
    have hv : (if c = '0' then some 0 else if c = '1' then some 1 else none) =
        some (if c = '0' then 0 else 1) := by
      rcases hc with h | h <;> simp [h]
    simp only [binLoop, hv, dif_pos hdiv]
    have hnocap : ¬ (bits + 1 > MAX_BIT_LEN) := by unfold MAX_BIT_LEN; omega
    simp only [if_neg hnocap]
    obtain ⟨bytes2, hrun, hlen2⟩ := ih (bits + 1)
      (bytes.set (bits / 8)
        ((bytes.get ⟨bits / 8, hdiv⟩) |||
          ((if c = '0' then 0 else 1) <<< (7 - bits % 8))))
      hrest (by rw [List.length_set]; exact hlen) (by omega)
    refine ⟨bytes2, ?_, hlen2⟩
    rw [show bits + (c :: rest).length = bits + 1 + rest.length from by
      simp only [List.length_cons]; omega]
    exact hrun

lemma binLoop_tooLong (cs : List Char) :
    ∀ (bits : Nat) (bytes : List Nat), (∀ c ∈ cs, c = '0' ∨ c = '1') →
      bytes.length = 128 → bits ≤ 1023 → 1024 ≤ bits + cs.length →
      binLoop cs bits bytes = .err .tooLong := by
  induction cs with
  | nil => intro bits bytes _ _ h1 h2; simp at h2; omega
  | cons c rest ih =>
    intro bits bytes h01 hlen hbits hcap
    have hc : c = '0' ∨ c = '1' := h01 c (List.mem_cons_self ..)
    have hrest : ∀ x ∈ rest, x = '0' ∨ x = '1' :=
      fun x hx => h01 x (List.mem_cons_of_mem _ hx)
    have hdiv : bits / 8 < bytes.length := by rw [hlen]; omega
    have hv : (if c = '0' then some 0 else if c = '1' then some 1 else none) =
        some (if c = '0' then 0 else 1) := by
      rcases hc with h | h <;> simp [h]
    simp only [binLoop, hv, dif_pos hdiv]
    by_cases hfull : bits + 1 > MAX_BIT_LEN
    · simp [hfull]
    · simp only [if_neg hfull]
      have : (c :: rest).length = rest.length + 1 := rfl
      rw [this] at hcap
      exact ih (bits + 1) _ hrest (by rw [List.length_set]; exact hlen)
        (by unfold MAX_BIT_LEN at hfull; omega) (by omega)

end BinLemmas

section SliceClaims

set_option maxRecDepth 40000 in
/-- C2 counterexample: the claim's inclusive 1024-bit cap is wrong on both
decoders. A 1024-character binary body is rejected with TooLong (the loop
checks bits > MAX_BIT_LEN = 1023 after each increment), and a 256-hex-digit
untagged literal (128 bytes, 1024 bits) passes the byte-count check but
fails in cell construction, since a cell holds at most 1023 bits. -/
theorem C2_counterexample :
    parse_bin_slice (List.replicate 1024 '0') = .error .tooLong
      ∧ parse_hex_slice (List.replicate 256 'f') = .error .cellError := by
  exact ⟨rfl, rfl⟩

set_option maxRecDepth 40000 in
/-- C2 (amended): the effective cap of both decoders is MAX_BIT_LEN = 1023
bits. parse_bin_slice succeeds on every body of 0/1 characters of length up
to 1023 (building a cell of exactly that many bits) and returns TooLong as
soon as the bit count reaches 1024; parse_hex_slice accepts a 254-hex-digit
(1016-bit) literal but rejects a 256-hex-digit (1024-bit) one with a cell
error. -/
theorem C2_cap_is_1023 :
    (∀ s : List Char, (∀ c ∈ s, c = '0' ∨ c = '1') →
      (s.length ≤ 1023 →
        ∃ c, parse_bin_slice s = .ok c ∧ c.bits.length = s.length)
      ∧ (1024 ≤ s.length → parse_bin_slice s = .error .tooLong))
    ∧ parse_hex_slice (List.replicate 254 'f') = .ok ⟨List.replicate 1016 true⟩
    ∧ parse_hex_slice (List.replicate 256 'f') = .error .cellError := by
  refine ⟨?_, rfl, rfl⟩
  intro s h01
  constructor
  · intro hlen
    obtain ⟨bytes2, hrun, hlen2⟩ :=
      binLoop_ok s 0 (List.replicate 128 0) h01 (by simp) (by omega)
    refine ⟨⟨((bytesToBits bytes2).take s.length)⟩, ?_, ?_⟩
    · have hcap : s.length ≤ MAX_BIT_LEN ∧ s.length ≤ 8 * bytes2.length := by
        unfold MAX_BIT_LEN
        rw [hlen2]
        omega
      have hsrb : store_raw_build bytes2 s.length =
          .ok ⟨(bytesToBits bytes2).take s.length⟩ := by
        unfold store_raw_build
        rw [if_pos hcap]
      simp only [parse_bin_slice, hrun, Nat.zero_add, hsrb]
    · have : (bytesToBits bytes2).length = 8 * bytes2.length :=
        bytesToBits_length bytes2
      rw [List.length_take]
      rw [hlen2] at this
      omega
  · intro hlen
    unfold parse_bin_slice
    rw [binLoop_tooLong s 0 (List.replicate 128 0) h01 (by simp) (by omega)
      (by omega)]

/-- C2 witness: the binary decoder accepts the three-bit body 101. -/
theorem C2_witness :
    ∃ c, parse_bin_slice ('1' :: '0' :: '1' :: []) = .ok c
      ∧ c.bits.length = 3 :=
  (C2_cap_is_1023.1 ('1' :: '0' :: '1' :: []) (by decide)).1 (by decide)

/-- C3: in tag mode the backward byte scan of parse_hex_slice (subtract 8
per fully-zero byte, then 1 plus the trailing-zero count of the first
non-zero byte) computes exactly the index of the last set bit of the byte
buffer, i.e. the number of data bits in front of the completion bit; and
the literal body f_ decodes to a 3-bit cell while ff (no tag) decodes to
the 8-bit cell 0xFF. -/
theorem C3_tag_scan :
    (∀ bytes : List Nat, (∀ b ∈ bytes, b < 256) →
      tag_bits bytes = lastSetBitIdx bytes)
    ∧ parse_hex_slice ('f' :: '_' :: []) = .ok ⟨[true, true, true]⟩
    ∧ parse_hex_slice ('f' :: 'f' :: []) = .ok ⟨List.replicate 8 true⟩ := by
  exact ⟨fun bytes h => tag_bits_eq_lastSetBitIdx bytes h, rfl, rfl⟩

/-- C3 witness: the scan on the byte buffer of the f_ literal (0xF0). -/
theorem C3_witness : tag_bits [240] = lastSetBitIdx [240] :=
  C3_tag_scan.1 [240] (by decide)

/-- C9: the u16 bit counter of the tag-mode scan never underflows: on every
byte buffer the scan computed in exact integer arithmetic stays
non-negative and agrees with the truncating natural-number scan used in the
embedding, and on an all-zero buffer the resulting bit count is exactly 0;
the all-zero tag literals (underscore only, and 00 with underscore) decode
to 0-bit cells rather than panicking or wrapping. -/
theorem C9_no_underflow :
    (∀ bytes : List Nat, (∀ b ∈ bytes, b < 256) →
      tag_bitsZ bytes = (tag_bits bytes : Int)
        ∧ 0 ≤ tag_bitsZ bytes
        ∧ ((∀ b ∈ bytes, b = 0) → tag_bits bytes = 0))
    ∧ parse_hex_slice ('_' :: []) = .ok ⟨[]⟩
    ∧ parse_hex_slice ('0' :: '0' :: '_' :: []) = .ok ⟨[]⟩ := by
  refine ⟨?_, rfl, rfl⟩
  intro bytes hlt
  have hlt' : ∀ b ∈ bytes.reverse, b < 256 := by
    intro b hb
    exact hlt b (List.mem_reverse.mp hb)
  have hspec := tagScanAuxZ_spec bytes.reverse (8 * bytes.length) hlt'
    (by rw [List.length_reverse])
  refine ⟨hspec.1, hspec.2, ?_⟩
  intro hz
  have hz' : ∀ b ∈ bytes.reverse, b = 0 := by
    intro b hb
    exact hz b (List.mem_reverse.mp hb)
  unfold tag_bits
  rw [tagScanAux_allzero bytes.reverse (8 * bytes.length) hz'
    (by rw [List.length_reverse]), List.length_reverse]
  omega

/-- C9 witness: the scan is exact and zero on the all-zero buffer 00 00. -/
theorem C9_witness :
    tag_bitsZ [0, 0] = (tag_bits [0, 0] : Int)
      ∧ 0 ≤ tag_bitsZ [0, 0]
      ∧ ((∀ b ∈ [0, 0], b = 0) → tag_bits [0, 0] = 0) :=
  C9_no_underflow.1 [0, 0] (by decide)

/-- C10: parse_bin_slice is total: the write bytes[bits / 8] is always in
bounds of the 128-byte buffer, because the TooLong check fires right after
the increment that would let bits reach 1024, so the loop never reaches the
out-of-bounds (panicking) branch on any input. -/
theorem C10_bin_slice_never_panics :
    ∀ s : List Char, (parse_bin_slice s).completes = true := by
  intro s
  have h := binLoop_completes s 0 (List.replicate 128 0)
    (by unfold MAX_BIT_LEN; omega) (by simp)
  unfold parse_bin_slice
  cases hres : binLoop s 0 (List.replicate 128 0) with
  | done bits bytes =>
    show (match store_raw_build bytes bits with
      | Except.ok c => SliceRes.ok c
      | Except.error e => SliceRes.error e).completes = true
    cases store_raw_build bytes bits <;> rfl
  | err e => rfl
  | panicked =>
    rw [hres] at h
    simp [BinRes.completes] at h

end SliceClaims

section ParseClaims

/-- C1 counterexample: the best-effort AST is not always returned.  On the
input NOP-space-z the instruction NOP parses (as the same input without the
trailing z shows), but the trailing unparseable z makes the implicit
end-of-input check fail, so the parse reports the diagnostic and returns no
output at all, discarding the successfully parsed instruction. -/
theorem C1_counterexample :
    (parse "NOP z").output = none
      ∧ (parse "NOP z").errors = [.expectedFound ⟨4, 5⟩ [none] (some 'z')]
      ∧ (parse "NOP").output = some [.mk ⟨0, 3⟩ "NOP" []] :=
  ⟨rfl, rfl, rfl⟩

/-- C1 (amended): parse always terminates and returns a result; when the
diagnostic list is empty the full AST is returned, and whenever the output
is missing (trailing unparseable input made the implicit end-of-input check
fail) at least one diagnostic reports it — a parse never fails silently. -/
theorem C1_parse_reports (s : String) :
    ((parse s).errors = [] → ∃ l, (parse s).output = some l)
    ∧ ((parse s).output = none → (parse s).errors ≠ []) := by
  rcases hp : parser (s.data.length + 2) s.data 0 with ⟨instrs, rest, pos, errs⟩
  cases rest with
  | nil =>
    have hout : parse s = ⟨some instrs, errs⟩ := by
      simp only [parse, hp]
    rw [hout]
    exact ⟨fun _ => ⟨instrs, rfl⟩, fun h => absurd h (by simp)⟩
  | cons c rest2 =>
    have hout : parse s =
        ⟨none, errs ++ [.expectedFound ⟨pos, pos + 1⟩ [none] (some c)]⟩ := by
      simp only [parse, hp]
    rw [hout]
    constructor
    · intro he
      simp at he
    · intro _
      simp

/-- C1 witness: on the counterexample input the missing output comes with a
reported diagnostic. -/
theorem C1_witness : (parse "NOP z").errors ≠ [] :=
  (C1_parse_reports "NOP z").2 rfl

/-- C5: a continuation block whose closing brace is missing is closed by
end of input, keeping the parsed inner instructions: the 14-character input
PUSHCONT-space-brace-space-NOP yields exactly one instruction named
PUSHCONT whose single Block argument holds exactly the nested NOP, and the
parse terminates (the unterminated block is still reported as a recovered
diagnostic, which the claim does not exclude). -/
theorem C5_unterminated_block :
    (parse "PUSHCONT \x7b NOP").output =
      some [.mk ⟨0, 14⟩ "PUSHCONT"
        [.mk ⟨9, 14⟩ (.block [.mk ⟨11, 14⟩ "NOP" []])]]
      ∧ (parse "PUSHCONT \x7b NOP").errors =
          [.expectedFound ⟨14, 14⟩ [some '\x7d'] none] :=
  ⟨rfl, rfl⟩

end ParseClaims

section CombinatorLemmas

variable {α β : Type}

lemma pmap_ok {f : α → β} {p : P α} {cs pos v rest pos2 errs}
    (h : p cs pos = .ok v rest pos2 errs) :
    pmap f p cs pos = .ok (f v) rest pos2 errs := by
  simp [pmap, h]

lemma pmap_fail {f : α → β} {p : P α} {cs pos e} (h : p cs pos = .fail e) :
    pmap f p cs pos = .fail e := by
  simp [pmap, h]

lemma pthen_ok {p : P α} {q : P β} {cs pos v rest pos2 e1 w rest2 pos3 e2}
    (h1 : p cs pos = .ok v rest pos2 e1)
    (h2 : q rest pos2 = .ok w rest2 pos3 e2) :
    pthen p q cs pos = .ok (v, w) rest2 pos3 (e1 ++ e2) := by
  simp [pthen, h1, h2]

lemma pthen_fail1 {p : P α} {q : P β} {cs pos e} (h : p cs pos = .fail e) :
    pthen p q cs pos = .fail e := by
  simp [pthen, h]

lemma pthen_fail2 {p : P α} {q : P β} {cs pos v rest pos2 e1 e}
    (h1 : p cs pos = .ok v rest pos2 e1) (h2 : q rest pos2 = .fail e) :
    pthen p q cs pos = .fail e := by
  simp [pthen, h1, h2]

lemma pignoreThen_ok {p : P α} {q : P β} {cs pos v rest pos2 e1 w rest2 pos3 e2}
    (h1 : p cs pos = .ok v rest pos2 e1)
    (h2 : q rest pos2 = .ok w rest2 pos3 e2) :
    pignoreThen p q cs pos = .ok w rest2 pos3 (e1 ++ e2) := by
  unfold pignoreThen
  rw [pmap_ok (pthen_ok h1 h2)]

lemma pignoreThen_fail1 {p : P α} {q : P β} {cs pos e}
    (h : p cs pos = .fail e) : pignoreThen p q cs pos = .fail e := by
  unfold pignoreThen
  rw [pmap_fail (pthen_fail1 h)]

lemma pignoreThen_fail2 {p : P α} {q : P β} {cs pos v rest pos2 e1 e}
    (h1 : p cs pos = .ok v rest pos2 e1) (h2 : q rest pos2 = .fail e) :
    pignoreThen p q cs pos = .fail e := by
  unfold pignoreThen
  rw [pmap_fail (pthen_fail2 h1 h2)]

lemma pthenIgnore_ok {p : P α} {q : P β} {cs pos v rest pos2 e1 w rest2 pos3 e2}
    (h1 : p cs pos = .ok v rest pos2 e1)
    (h2 : q rest pos2 = .ok w rest2 pos3 e2) :
    pthenIgnore p q cs pos = .ok v rest2 pos3 (e1 ++ e2) := by
  unfold pthenIgnore
  rw [pmap_ok (pthen_ok h1 h2)]

lemma pthenIgnore_fail2 {p : P α} {q : P β} {cs pos v rest pos2 e1 e}
    (h1 : p cs pos = .ok v rest pos2 e1) (h2 : q rest pos2 = .fail e) :
    pthenIgnore p q cs pos = .fail e := by
  unfold pthenIgnore
  rw [pmap_fail (pthen_fail2 h1 h2)]

lemma porelse_left {p q : P α} {cs pos v rest pos2 errs}
    (h : p cs pos = .ok v rest pos2 errs) :
    porelse p q cs pos = .ok v rest pos2 errs := by
  simp [porelse, h]

lemma porelse_right {p q : P α} {cs pos e} (h : p cs pos = .fail e) :
    porelse p q cs pos = q cs pos := by
  simp [porelse, h]

lemma pjust_same (c : Char) (rest : List Char) (pos : Nat) :
    pjust c (c :: rest) pos = .ok () rest (pos + 1) [] := by
  simp [pjust]

lemma pjust_ne {c c2 : Char} (rest : List Char) (pos : Nat) (h : c2 ≠ c) :
    pjust c (c2 :: rest) pos =
      .fail (.expectedFound ⟨pos, pos + 1⟩ [some c] (some c2)) := by
  simp [pjust, h]

lemma pjust_nil (c : Char) (pos : Nat) :
    pjust c [] pos = .fail (.expectedFound ⟨pos, pos⟩ [some c] none) := rfl

lemma ptryMap_ok {f : α → Span → Except ParserError β} {p : P α}
    {cs pos v rest pos2 errs w}
    (h : p cs pos = .ok v rest pos2 errs)
    (hf : f v ⟨pos, pos2⟩ = .ok w) :
    ptryMap f p cs pos = .ok w rest pos2 errs := by
  simp [ptryMap, h, hf]

lemma ptryMap_err {f : α → Span → Except ParserError β} {p : P α}
    {cs pos v rest pos2 errs e}
    (h : p cs pos = .ok v rest pos2 errs)
    (hf : f v ⟨pos, pos2⟩ = .error e) :
    ptryMap f p cs pos = .fail e := by
  simp [ptryMap, h, hf]

lemma ptryMap_fail {f : α → Span → Except ParserError β} {p : P α} {cs pos e}
    (h : p cs pos = .fail e) : ptryMap f p cs pos = .fail e := by
  simp [ptryMap, h]

lemma precoverVia_ok {p fb : P α} {cs pos v rest pos2 errs}
    (h : p cs pos = .ok v rest pos2 errs) :
    precoverVia p fb cs pos = .ok v rest pos2 errs := by
  simp [precoverVia, h]

lemma precoverVia_rec {p fb : P α} {cs pos e v rest pos2 errs}
    (hp : p cs pos = .fail e) (hfb : fb cs pos = .ok v rest pos2 errs) :
    precoverVia p fb cs pos = .ok v rest pos2 (e :: errs) := by
  simp [precoverVia, hp, hfb]

lemma pmanyChars_eval (f : Char → Bool) (cs : List Char) (pos : Nat) :
    pmanyChars f cs pos =
      .ok (cs.takeWhile f) (cs.dropWhile f)
        (pos + (cs.takeWhile f).length) [] := rfl

lemma takeWhile_split {f : Char → Bool} (ds rest : List Char)
    (h1 : ∀ c ∈ ds, f c = true) (h2 : headNot f rest = true) :
    (ds ++ rest).takeWhile f = ds := by
  induction ds with
  | nil =>
    cases rest with
    | nil => rfl
    | cons c r =>
      simp only [headNot, Bool.not_eq_true'] at h2
      simp [List.takeWhile_cons, h2]
  | cons d t ih =>
    have hd : f d = true := h1 d (List.mem_cons_self ..)
    have ht : ∀ c ∈ t, f c = true := fun c hc => h1 c (List.mem_cons_of_mem _ hc)
    simp [List.takeWhile_cons, hd, ih ht]

lemma dropWhile_split {f : Char → Bool} (ds rest : List Char)
    (h1 : ∀ c ∈ ds, f c = true) (h2 : headNot f rest = true) :
    (ds ++ rest).dropWhile f = rest := by
  induction ds with
  | nil =>
    cases rest with
    | nil => rfl
    | cons c r =>
      simp only [headNot, Bool.not_eq_true'] at h2
      simp [List.dropWhile_cons, h2]
  | cons d t ih =>
    have hd : f d = true := h1 d (List.mem_cons_self ..)
    have ht : ∀ c ∈ t, f c = true := fun c hc => h1 c (List.mem_cons_of_mem _ hc)
    simp [List.dropWhile_cons, hd, ih ht]

lemma intToken_exact (radix : Nat) (ds rest : List Char) (pos : Nat)
    (h1 : ds ≠ []) (h2 : ∀ c ∈ ds, isDigitRadix radix c = true)
    (h3 : ds.head? = some '0' → ds = ['0'])
    (h4 : headNot (isDigitRadix radix) rest = true) :
    intToken radix (ds ++ rest) pos = .ok ds rest (pos + ds.length) [] := by
  cases ds with
  | nil => exact absurd rfl h1
  | cons c t =>
    have hc : isDigitRadix radix c = true := h2 c (List.mem_cons_self ..)
    have ht : ∀ x ∈ t, isDigitRadix radix x = true :=
      fun x hx => h2 x (List.mem_cons_of_mem _ hx)
    by_cases hc0 : c = '0'
    · have hds : c :: t = ['0'] := h3 (by rw [hc0]; rfl)
      have htn : t = [] := by
        cases t with
        | nil => rfl
        | cons a b => simp [hc0] at hds
      subst htn
      subst hc0
      simp only [intToken, List.cons_append, List.nil_append]
      rw [if_neg (by simp)]
      simp
    · simp only [intToken, List.cons_append]
      rw [if_pos ⟨hc, hc0⟩, takeWhile_split t rest ht h4,
        dropWhile_split t rest ht h4]
      simp only [List.length_cons]
      rw [show pos + 1 + t.length = pos + (t.length + 1) from by omega]

end CombinatorLemmas

section NumberLemmas

lemma parse_int_ok (ds : List Char) (radix : Nat) (span : Span)
    (h1 : ds ≠ []) (h2 : ∀ c ∈ ds, isDigitRadix radix c = true) :
    parse_int ds radix span = .ok (foldVal radix ds) := by
  unfold parse_int
  rw [if_pos ⟨h1, List.all_eq_true.mpr h2⟩]

lemma number_hex (ds rest : List Char) (pos : Nat)
    (h1 : ds ≠ []) (h2 : ∀ c ∈ ds, isDigitRadix 16 c = true)
    (h3 : ds.head? = some '0' → ds = ['0'])
    (h4 : headNot (isDigitRadix 16) rest = true) :
    number ('0' :: 'x' :: (ds ++ rest)) pos =
      .ok (foldVal 16 ds) rest (pos + 2 + ds.length) [] := by
  unfold number
  have hpre : pjust2 '0' 'x' ('0' :: 'x' :: (ds ++ rest)) pos =
      .ok () (ds ++ rest) (pos + 1 + 1) ([] ++ []) := by
    unfold pjust2
    exact pignoreThen_ok (pjust_same '0' _ pos) (pjust_same 'x' _ (pos + 1))
  have htok := intToken_exact 16 ds rest (pos + 1 + 1) h1 h2 h3 h4
  have hval := parse_int_ok ds 16 ⟨pos + 1 + 1, pos + 1 + 1 + ds.length⟩ h1 h2
  rw [porelse_left (pignoreThen_ok hpre (ptryMap_ok htok hval))]
  simp

lemma number_bin (ds rest : List Char) (pos : Nat)
    (h1 : ds ≠ []) (h2 : ∀ c ∈ ds, isDigitRadix 2 c = true)
    (h3 : ds.head? = some '0' → ds = ['0'])
    (h4 : headNot (isDigitRadix 2) rest = true) :
    number ('0' :: 'b' :: (ds ++ rest)) pos =
      .ok (foldVal 2 ds) rest (pos + 2 + ds.length) [] := by
  unfold number
  have hx : pjust2 '0' 'x' ('0' :: 'b' :: (ds ++ rest)) pos =
      .fail (.expectedFound ⟨pos + 1, pos + 1 + 1⟩ [some 'x'] (some 'b')) := by
    unfold pjust2
    exact pignoreThen_fail2 (pjust_same '0' _ pos)
      (pjust_ne _ (pos + 1) (by decide))
  rw [porelse_right (pignoreThen_fail1 hx)]
  have hpre : pjust2 '0' 'b' ('0' :: 'b' :: (ds ++ rest)) pos =
      .ok () (ds ++ rest) (pos + 1 + 1) ([] ++ []) := by
    unfold pjust2
    exact pignoreThen_ok (pjust_same '0' _ pos) (pjust_same 'b' _ (pos + 1))
  have htok := intToken_exact 2 ds rest (pos + 1 + 1) h1 h2 h3 h4
  have hval := parse_int_ok ds 2 ⟨pos + 1 + 1, pos + 1 + 1 + ds.length⟩ h1 h2
  rw [porelse_left (pignoreThen_ok hpre (ptryMap_ok htok hval))]
  simp

lemma number_dec (ds rest : List Char) (pos : Nat)
    (h1 : ds ≠ []) (h2 : ∀ c ∈ ds, isDigitRadix 10 c = true)
    (h3 : ds.head? = some '0' → ds = ['0'])
    (h4 : headNot (isDigitRadix 10) rest = true)
    (h5 : ds = ['0'] → headNot (fun c => c == 'x' || c == 'b') rest = true) :
    number (ds ++ rest) pos =
      .ok (foldVal 10 ds) rest (pos + ds.length) [] := by
  have htok := intToken_exact 10 ds rest pos h1 h2 h3 h4
  have hval := parse_int_ok ds 10 ⟨pos, pos + ds.length⟩ h1 h2
  cases ds with
  | nil => exact absurd rfl h1
  | cons c t =>
    by_cases hc0 : c = '0'
    · have hds : c :: t = ['0'] := h3 (by rw [hc0]; rfl)
      have hxb := h5 hds
      rw [hds] at htok hval ⊢
      have hxfail : ∀ c2 : Char, pjust c2 rest (pos + 1) = .fail
            (match rest with
             | [] => .expectedFound ⟨pos + 1, pos + 1⟩ [some c2] none
             | c3 :: _ => .expectedFound ⟨pos + 1, pos + 1 + 1⟩ [some c2] (some c3))
          ∨ (c2 = 'x' ∨ c2 = 'b') → True := fun _ _ => trivial
      unfold number
      have h0 : pjust '0' (['0'] ++ rest) pos = .ok () rest (pos + 1) [] :=
        pjust_same '0' rest pos
      have hxf : pjust 'x' rest (pos + 1) =
          .fail (match rest with
            | [] => .expectedFound ⟨pos + 1, pos + 1⟩ [some 'x'] none
            | c3 :: _ => .expectedFound ⟨pos + 1, pos + 1 + 1⟩ [some 'x'] (some c3)) := by
        cases rest with
        | nil => rfl
        | cons c3 r3 =>
          simp only [headNot, Bool.not_eq_true', Bool.or_eq_false_iff,
            beq_eq_false_iff_ne] at hxb
          exact pjust_ne r3 (pos + 1) hxb.1
      have hbf : pjust 'b' rest (pos + 1) =
          .fail (match rest with
            | [] => .expectedFound ⟨pos + 1, pos + 1⟩ [some 'b'] none
            | c3 :: _ => .expectedFound ⟨pos + 1, pos + 1 + 1⟩ [some 'b'] (some c3)) := by
        cases rest with
        | nil => rfl
        | cons c3 r3 =>
          simp only [headNot, Bool.not_eq_true', Bool.or_eq_false_iff,
            beq_eq_false_iff_ne] at hxb
          exact pjust_ne r3 (pos + 1) hxb.2
      rw [porelse_right (pignoreThen_fail1 (by
        unfold pjust2
        exact pignoreThen_fail2 h0 hxf))]
      rw [porelse_right (pignoreThen_fail1 (by
        unfold pjust2
        exact pignoreThen_fail2 h0 hbf))]
      exact ptryMap_ok htok hval
    · have hcne : ∀ c2 : Char, c2 ≠ c → pjust2 c2 'x' ((c :: t) ++ rest) pos =
          .fail (.expectedFound ⟨pos, pos + 1⟩ [some c2] (some c)) := by
        intro c2 hne
        unfold pjust2
        exact pignoreThen_fail1 (pjust_ne _ pos (fun h => hne h.symm))
      unfold number
      rw [porelse_right (pignoreThen_fail1 (hcne '0' (fun h => hc0 h.symm)))]
      rw [porelse_right (pignoreThen_fail1 (by
        unfold pjust2
        exact pignoreThen_fail1 (pjust_ne _ pos hc0)))]
      exact ptryMap_ok htok hval

end NumberLemmas

section NumberClaims

/-- C7: a numeric literal is an optional leading minus followed by exactly
one of 0x plus hex digits, 0b plus binary digits, or bare decimal digits,
valued as the magnitude in the indicated radix negated under the minus:
whenever the unsigned part parses, the minus form yields its negation, the
0x and 0b and bare-decimal forms yield the radix value of their digit run,
and in particular -0x10 parses to -16, 0b101 to 5, and 42 to 42. -/
theorem C7_nat_literal :
    (∀ (cs : List Char) (pos : Nat) (v : Int) (rest : List Char)
        (pos2 : Nat) (errs : List ParserError),
      number cs (pos + 1) = .ok v rest pos2 errs →
      nat ('-' :: cs) pos = .ok (-v) rest pos2 errs)
    ∧ (∀ (ds rest : List Char) (pos : Nat),
        ds ≠ [] → (∀ c ∈ ds, isDigitRadix 16 c = true) →
        (ds.head? = some '0' → ds = ['0']) →
        headNot (isDigitRadix 16) rest = true →
        number ('0' :: 'x' :: (ds ++ rest)) pos =
          .ok (foldVal 16 ds) rest (pos + 2 + ds.length) [])
    ∧ (∀ (ds rest : List Char) (pos : Nat),
        ds ≠ [] → (∀ c ∈ ds, isDigitRadix 2 c = true) →
        (ds.head? = some '0' → ds = ['0']) →
        headNot (isDigitRadix 2) rest = true →
        number ('0' :: 'b' :: (ds ++ rest)) pos =
          .ok (foldVal 2 ds) rest (pos + 2 + ds.length) [])
    ∧ (∀ (ds rest : List Char) (pos : Nat),
        ds ≠ [] → (∀ c ∈ ds, isDigitRadix 10 c = true) →
        (ds.head? = some '0' → ds = ['0']) →
        headNot (isDigitRadix 10) rest = true →
        (ds = ['0'] → headNot (fun c => c == 'x' || c == 'b') rest = true) →
        number (ds ++ rest) pos = .ok (foldVal 10 ds) rest (pos + ds.length) [])
    ∧ nat ('-' :: '0' :: 'x' :: '1' :: '0' :: []) 0 = .ok (-16) [] 5 []
    ∧ nat ('0' :: 'b' :: '1' :: '0' :: '1' :: []) 0 = .ok 5 [] 5 []
    ∧ nat ('4' :: '2' :: []) 0 = .ok 42 [] 2 [] := by
  refine ⟨?_, number_hex, number_bin, number_dec, rfl, rfl, rfl⟩
  intro cs pos v rest pos2 errs h
  unfold nat
  rw [porelse_left (pmap_ok (pignoreThen_ok (pjust_same '-' cs pos) h))]
  simp

/-- C7 witness: the negation clause applied to the hexadecimal literal of
the claim's example. -/
theorem C7_witness :
    nat ('-' :: '0' :: 'x' :: '1' :: '0' :: []) 0 = .ok (-16) [] 5 [] := by
  have h := C7_nat_literal.1 ('0' :: 'x' :: '1' :: '0' :: []) 0 16 [] 5 [] (by rfl)
  simpa using h

end NumberClaims

section RegisterClaims

/-- C4: a control register is the prefix c followed by a decimal run parsed
as an 8-bit unsigned integer: for every digit run, when its value n fits a
u8 and lies in the set 0..5 or 7 the argument parses to that register and
the input continues right after the digits; when n is 6, between 8 and 255,
or beyond u8 (or, by the recovery clause of the same parser, the digits are
malformed), a control-register diagnostic is emitted and the parser
recovers to none (the Invalid argument) by consuming everything up to the
next comma or whitespace. -/
theorem C4_control_register (ds rest : List Char) (pos : Nat)
    (h1 : ds ≠ []) (h2 : ∀ c ∈ ds, isDigitRadix 10 c = true)
    (h3 : ds.head? = some '0' → ds = ['0'])
    (h4 : headNot (isDigitRadix 10) rest = true) :
    control_register ('c' :: (ds ++ rest)) pos =
      if foldVal 10 ds ≤ 255 ∧ (foldVal 10 ds ≤ 5 ∨ foldVal 10 ds = 7) then
        .ok (some (foldVal 10 ds)) rest (pos + 1 + ds.length) []
      else
        .ok none
          ((ds ++ rest).dropWhile (fun c => !(c == ',') && !c.isWhitespace))
          (pos + 1 +
            ((ds ++ rest).takeWhile (fun c => !(c == ',') && !c.isWhitespace)).length)
          [.invalidControlRegister ⟨pos + 1, pos + 1 + ds.length⟩] := by
  unfold control_register creg_idx
  have hc : pjust 'c' ('c' :: (ds ++ rest)) pos = .ok () (ds ++ rest) (pos + 1) [] :=
    pjust_same 'c' _ pos
  have htok := intToken_exact 10 ds rest (pos + 1) h1 h2 h3 h4
  by_cases hval : foldVal 10 ds ≤ 255 ∧ (foldVal 10 ds ≤ 5 ∨ foldVal 10 ds = 7)
  · rw [if_pos hval]
    have hf : (if foldVal 10 ds ≤ 255 then
          if foldVal 10 ds ≤ 5 ∨ foldVal 10 ds = 7 then
            Except.ok (some (foldVal 10 ds))
          else Except.error (ParserError.invalidControlRegister
            ⟨pos + 1, pos + 1 + ds.length⟩)
        else Except.error (ParserError.invalidControlRegister
          ⟨pos + 1, pos + 1 + ds.length⟩)) = .ok (some (foldVal 10 ds)) := by
      rw [if_pos hval.1, if_pos hval.2]
    rw [pignoreThen_ok hc (precoverVia_ok (ptryMap_ok htok hf))]
    simp
  · rw [if_neg hval]
    by_cases hu8 : foldVal 10 ds ≤ 255
    · have hr : ¬(foldVal 10 ds ≤ 5 ∨ foldVal 10 ds = 7) :=
        fun hr2 => hval ⟨hu8, hr2⟩
      simp [pignoreThen, pthen, pmap, precoverVia, ptryMap, until_next_arg,
        pmanyChars, pjust_same, htok, hu8, hr]
    · simp [pignoreThen, pthen, pmap, precoverVia, ptryMap, until_next_arg,
        pmanyChars, pjust_same, htok, hu8]

/-- C4 witness: c6 is rejected with a control-register diagnostic and
recovers to none consuming the digit, while c7 parses to register 7. -/
theorem C4_witness :
    control_register ('c' :: '6' :: []) 0 =
      .ok none [] 2 [.invalidControlRegister ⟨1, 2⟩]
      ∧ control_register ('c' :: '7' :: []) 0 = .ok (some 7) [] 2 [] := by
  constructor
  · have h := C4_control_register ['6'] [] 0 (by decide) (by decide)
      (by decide) (by decide)
    simpa using h
  · have h := C4_control_register ['7'] [] 0 (by decide) (by decide)
      (by decide) (by decide)
    simpa using h

/-- C6: a stack register accepts exactly the bare form (prefix s and a
decimal run whose value fits i16, continuing right after the digits) and
the parenthesized negative form (s, parenthesis, minus, digits, closing
parenthesis, yielding the negated index); a bare index beyond i16 or a
non-digit non-parenthesis after the s recovers to none consuming up to the
next comma or whitespace, and content after s-parenthesis not starting
with a minus recovers to none consuming up to the next closing parenthesis
(taking it) or line break, each case emitting a diagnostic. -/
theorem C6_stack_register :
    (∀ (ds rest : List Char) (pos : Nat),
      ds ≠ [] → (∀ c ∈ ds, isDigitRadix 10 c = true) →
      (ds.head? = some '0' → ds = ['0']) →
      headNot (isDigitRadix 10) rest = true →
      foldVal 10 ds ≤ 32767 →
      stack_register ('s' :: (ds ++ rest)) pos =
        .ok (some (foldVal 10 ds)) rest (pos + 1 + ds.length) [])
    ∧ (∀ (ds rest : List Char) (pos : Nat),
      ds ≠ [] → (∀ c ∈ ds, isDigitRadix 10 c = true) →
      (ds.head? = some '0' → ds = ['0']) →
      headNot (isDigitRadix 10) rest = true →
      32767 < foldVal 10 ds →
      stack_register ('s' :: (ds ++ rest)) pos =
        .ok none
          ((ds ++ rest).dropWhile (fun c => !(c == ',') && !c.isWhitespace))
          (pos + 1 +
            ((ds ++ rest).takeWhile (fun c => !(c == ',') && !c.isWhitespace)).length)
          [.invalidStackRegister ⟨pos + 1, pos + 1 + ds.length⟩])
    ∧ (∀ (ds rest : List Char) (pos : Nat),
      ds ≠ [] → (∀ c ∈ ds, isDigitRadix 10 c = true) →
      (ds.head? = some '0' → ds = ['0']) →
      foldVal 10 ds ≤ 32767 →
      stack_register ('s' :: '(' :: '-' :: (ds ++ ')' :: rest)) pos =
        .ok (some (-(foldVal 10 ds : Int))) rest (pos + 3 + ds.length + 1) [])
    ∧ (∀ (c : Char) (rest : List Char) (pos : Nat),
      isDigitRadix 10 c = false → c ≠ '(' →
      stack_register ('s' :: c :: rest) pos =
        .ok none
          ((c :: rest).dropWhile (fun c2 => !(c2 == ',') && !c2.isWhitespace))
          (pos + 1 +
            ((c :: rest).takeWhile (fun c2 => !(c2 == ',') && !c2.isWhitespace)).length)
          [.expectedFound ⟨pos + 1, pos + 2⟩ [] (some c)])
    ∧ (∀ (c : Char) (rest2 : List Char) (pos posR : Nat) (restR : List Char),
      c ≠ '-' →
      until_eof_or_paren (c :: rest2) (pos + 2) = .ok () restR posR [] →
      stack_register ('s' :: '(' :: c :: rest2) pos =
        .ok none restR posR
          [.expectedFound ⟨pos + 2, pos + 3⟩ [some '-'] (some c)]) := by
  refine ⟨?_, ?_, ?_, ?_, ?_⟩
  · intro ds rest pos h1 h2 h3 h4 hv
    obtain ⟨c, t, hds⟩ : ∃ c t, ds = c :: t := by
      cases ds with
      | nil => exact absurd rfl h1
      | cons c t => exact ⟨c, t, rfl⟩
    have htok := intToken_exact 10 ds rest (pos + 1) h1 h2 h3 h4
    have hcd : isDigitRadix 10 c = true := h2 c (by rw [hds]; exact List.mem_cons_self ..)
    have hcp : ¬(c = '(') := by
      intro h
      rw [h] at hcd
      simp [isDigitRadix, digitVal] at hcd
    subst hds
    simp only [List.cons_append] at htok
    simp [stack_register, pignoreThen, pthenIgnore, pthen, pmap, precoverVia,
      porelse, ptryMap, sreg_idx, pjust, hcp, htok, hv]
  · intro ds rest pos h1 h2 h3 h4 hv
    obtain ⟨c, t, hds⟩ : ∃ c t, ds = c :: t := by
      cases ds with
      | nil => exact absurd rfl h1
      | cons c t => exact ⟨c, t, rfl⟩
    have htok := intToken_exact 10 ds rest (pos + 1) h1 h2 h3 h4
    have hcd : isDigitRadix 10 c = true := h2 c (by rw [hds]; exact List.mem_cons_self ..)
    have hcp : ¬(c = '(') := by
      intro h
      rw [h] at hcd
      simp [isDigitRadix, digitVal] at hcd
    have hnv : ¬(foldVal 10 ds ≤ 32767) := by omega
    subst hds
    simp only [List.cons_append] at htok
    simp [stack_register, pignoreThen, pthenIgnore, pthen, pmap, precoverVia,
      porelse, ptryMap, sreg_idx, until_next_arg, pmanyChars, pjust, hcp, htok,
      hnv]
  · intro ds rest pos h1 h2 h3 hv
    have h4 : headNot (isDigitRadix 10) (')' :: rest) = true := rfl
    have htok := intToken_exact 10 ds (')' :: rest) (pos + 3) h1 h2 h3 h4
    simp [stack_register, pignoreThen, pthenIgnore, pthen, pmap, precoverVia,
      porelse, ptryMap, sreg_idx, pjust, htok, hv]
  · intro c rest pos hc1 hc2
    have hc0 : ¬(c = '0') := by
      intro h
      rw [h] at hc1
      simp [isDigitRadix, digitVal] at hc1
    have hcd : ¬(isDigitRadix 10 c = true) := by simp [hc1]
    simp [stack_register, pignoreThen, pthenIgnore, pthen, pmap, precoverVia,
      porelse, ptryMap, sreg_idx, intToken, until_next_arg, pmanyChars, pjust,
      hc1, hc0, hc2, hcd]
  · intro c rest2 pos posR restR hcm huep
    have hcm' : ¬(c = '-') := hcm
    simp [stack_register, pignoreThen, pthenIgnore, pthen, pmap, precoverVia,
      porelse, ptryMap, sreg_idx, pjust, hcm', huep]

/-- C6 witness: s5 parses to stack register 5 and the parenthesized s(-1)
parses to stack register -1. -/
theorem C6_witness :
    stack_register ('s' :: '5' :: []) 0 = .ok (some 5) [] 2 []
      ∧ stack_register ('s' :: '(' :: '-' :: '1' :: ')' :: []) 0 =
          .ok (some (-1)) [] 5 [] := by
  constructor
  · have h := C6_stack_register.1 ['5'] [] 0 (by decide) (by decide)
      (by decide) (by decide) (by decide)
    simpa using h
  · have h := C6_stack_register.2.2.1 ['1'] [] 0 (by decide) (by decide)
      (by decide) (by decide)
    simpa using h

end RegisterClaims

section InvariantLemmas

variable {α β : Type}

lemma pmap_inv {f : α → β} {p : P α} {cs : List Char} {pos : Nat} {v : β}
    {rest : List Char} {pos2 : Nat} {errs : List ParserError}
    (h : pmap f p cs pos = .ok v rest pos2 errs) :
    ∃ w, p cs pos = .ok w rest pos2 errs ∧ v = f w := by
  unfold pmap at h
  cases hp : p cs pos with
  | ok w r q e =>
    rw [hp] at h
    injection h with h1 h2 h3 h4
    subst h2 h3 h4
    exact ⟨w, rfl, h1.symm⟩
  | fail e =>
    rw [hp] at h
    exact absurd h (by simp)

lemma ppadded_inv {p : P α} {cs : List Char} {pos : Nat} {v : α}
    {rest : List Char} {pos2 : Nat} {errs : List ParserError}
    (h : ppadded p cs pos = .ok v rest pos2 errs) :
    ∃ cs2 q2 r2 q3, p cs2 q2 = .ok v r2 q3 errs := by
  unfold ppadded skipWs at h
  dsimp only at h
  cases hp : p (cs.dropWhile Char.isWhitespace)
      (pos + (cs.takeWhile Char.isWhitespace).length) with
  | ok w r q e =>
    rw [hp] at h
    injection h with h1 h2 h3 h4
    subst h1 h4
    exact ⟨_, _, _, _, hp⟩
  | fail e =>
    rw [hp] at h
    simp at h

lemma instr_ident_ok {cs : List Char} {pos : Nat} {id rest : List Char}
    {pos2 : Nat} {errs : List ParserError}
    (h : instr_ident cs pos = .ok id rest pos2 errs) :
    identOk (String.mk id) := by
  cases cs with
  | nil => simp [instr_ident] at h
  | cons c r =>
    unfold instr_ident at h
    dsimp only at h
    by_cases hc : is_instr_ident_char c false
    · rw [if_pos hc] at h
      injection h with h1 h2 h3 h4
      subst h1
      unfold identOk
      refine ⟨hc, fun c2 hc2 => ?_⟩
      have := List.mem_takeWhile_imp hc2
      simpa using this
    · rw [if_neg hc] at h
      simp at h

lemma ppadded_sound {p : P Instr} (hp : SoundP p) : SoundP (ppadded p) := by
  intro cs pos i rest pos2 errs h
  obtain ⟨cs2, q2, r2, q3, hs⟩ := ppadded_inv h
  exact hp _ _ _ _ _ _ hs

lemma prepeated_sound {p : P Instr} (hp : SoundP p) :
    ∀ (fuel : Nat) (cs : List Char) (pos : Nat),
      ∀ i ∈ (prepeated p fuel cs pos).1, ValidInstr i := by
  intro fuel
  induction fuel with
  | zero => intro cs pos i hi; simp [prepeated] at hi
  | succ f ih =>
    intro cs pos i hi
    cases hres : p cs pos with
    | fail e => simp [prepeated, hres] at hi
    | ok v rest pos2 errs =>
      rcases hrec : prepeated p f rest pos2 with ⟨vs, r2, q2, e2⟩
      simp only [prepeated, hres, hrec] at hi
      rcases List.mem_cons.mp hi with hi | hi
      · subst hi
        exact hp _ _ _ _ _ _ hres
      · exact ih rest pos2 i (by rw [hrec]; exact hi)

lemma psepTail_mem (item : P α) (sep : P Unit) :
    ∀ (fuel : Nat) (cs : List Char) (pos : Nat) (a : α),
      a ∈ (psepTail item sep fuel cs pos).1 →
      ∃ cs2 q2 r2 q3 e2, item cs2 q2 = .ok a r2 q3 e2 := by
  intro fuel
  induction fuel with
  | zero => intro cs pos a ha; simp [psepTail] at ha
  | succ f ih =>
    intro cs pos a ha
    cases hsep : sep cs pos with
    | fail e => simp [psepTail, hsep] at ha
    | ok u r1 q1 e1 =>
      cases hitem : item r1 q1 with
      | fail e => simp [psepTail, hsep, hitem] at ha
      | ok v r2 q2 e2 =>
        rcases hrec : psepTail item sep f r2 q2 with ⟨vs, r3, q3, e3⟩
        simp only [psepTail, hsep, hitem, hrec] at ha
        rcases List.mem_cons.mp ha with ha | ha
        · subst ha
          exact ⟨_, _, _, _, _, hitem⟩
        · exact ih r2 q2 a (by rw [hrec]; exact ha)

lemma psepBy_mem (item : P α) (sep : P Unit) (fuel : Nat) (cs : List Char)
    (pos : Nat) (a : α) (ha : a ∈ (psepBy item sep fuel cs pos).1) :
    ∃ cs2 q2 r2 q3 e2, item cs2 q2 = .ok a r2 q3 e2 := by
  unfold psepBy at ha
  cases hitem : item cs pos with
  | fail e => simp [hitem] at ha
  | ok v r1 q1 e1 =>
    rcases hrec : psepTail item sep fuel r1 q1 with ⟨vs, r2, q2, e2⟩
    simp only [hitem, hrec] at ha
    rcases List.mem_cons.mp ha with ha | ha
    · subst ha
      exact ⟨_, _, _, _, _, hitem⟩
    · exact psepTail_mem item sep fuel r1 q1 a (by rw [hrec]; exact ha)

lemma cont_block_sound {p : P Instr} (hp : SoundP p) (fuel : Nat)
    {cs : List Char} {pos : Nat} {is : List Instr} {rest : List Char}
    {pos2 : Nat} {errs : List ParserError}
    (h : cont_block p fuel cs pos = .ok is rest pos2 errs) :
    ∀ i ∈ is, ValidInstr i := by
  unfold cont_block at h
  cases hj : pjust '\x7b' cs pos with
  | fail e => rw [hj] at h; simp at h
  | ok u r2 q2 e2 =>
    rw [hj] at h
    rcases hrep : prepeated (ppadded p) fuel r2 q2 with ⟨instrs, r3, q3, e3⟩
    simp only [hrep] at h
    cases hcl : pclose fuel r3 q3 with
    | fail e => rw [hcl] at h; simp at h
    | ok u2 r4 q4 e4 =>
      rw [hcl] at h
      injection h with h1 h2 h3 h4
      subst h1
      intro i hi
      exact prepeated_sound (ppadded_sound hp) fuel r2 q2 i (by rw [hrep]; exact hi)

lemma instr_arg_value_block {p : P Instr} {fuel : Nat} (hp : SoundP p)
    {cs : List Char} {pos : Nat} {v : InstrArgValue} {rest : List Char}
    {pos2 : Nat} {errs : List ParserError}
    (h : instr_arg_value p fuel cs pos = .ok v rest pos2 errs) :
    ∀ bs, v = .block bs → ∀ i ∈ bs, ValidInstr i := by
  intro bs hv i hi
  subst hv
  unfold instr_arg_value at h
  cases h1 : pmap InstrArgValue.nat nat cs pos with
  | ok v1 r1 q1 e1 =>
    rw [porelse_left h1] at h
    obtain ⟨w, hw, hvw⟩ := pmap_inv h1
    rw [hvw] at h
    simp at h
  | fail e1 =>
    rw [porelse_right h1] at h
    cases h2 : pmap (fun o => (o.map InstrArgValue.sreg).getD .invalid)
        stack_register cs pos with
    | ok v2 r2 q2 e2 =>
      rw [porelse_left h2] at h
      obtain ⟨w, hw, hvw⟩ := pmap_inv h2
      rw [hvw] at h
      cases w with
      | some n => simp at h
      | none => simp at h
    | fail e2 =>
      rw [porelse_right h2] at h
      cases h3 : pmap (fun o => (o.map InstrArgValue.creg).getD .invalid)
          control_register cs pos with
      | ok v3 r3 q3 e3 =>
        rw [porelse_left h3] at h
        obtain ⟨w, hw, hvw⟩ := pmap_inv h3
        rw [hvw] at h
        cases w with
        | some n => simp at h
        | none => simp at h
      | fail e3 =>
        rw [porelse_right h3] at h
        cases h4 : pmap InstrArgValue.block (cont_block p fuel) cs pos with
        | ok v4 r4 q4 e4 =>
          rw [porelse_left h4] at h
          obtain ⟨w, hw, hvw⟩ := pmap_inv h4
          rw [hvw] at h
          injection h with a1 a2 a3 a4
          injection a1 with a1
          subst a1
          exact cont_block_sound hp fuel hw i hi
        | fail e4 =>
          rw [porelse_right h4] at h
          obtain ⟨w, hw, hvw⟩ := pmap_inv h
          cases w with
          | some c => simp at hvw
          | none => simp at hvw

lemma instr_arg_sound {p : P Instr} {fuel : Nat} (hp : SoundP p)
    {cs : List Char} {pos : Nat} {a : InstrArg} {rest : List Char}
    {pos2 : Nat} {errs : List ParserError}
    (h : instr_arg p fuel cs pos = .ok a rest pos2 errs) :
    ∀ bs, a.value = .block bs → ∀ i ∈ bs, ValidInstr i := by
  unfold instr_arg at h
  cases hv : instr_arg_value p fuel cs pos with
  | fail e => rw [hv] at h; simp at h
  | ok v r q e =>
    rw [hv] at h
    injection h with h1 h2 h3 h4
    subst h1
    intro bs hbs
    exact instr_arg_value_block hp hv bs
      (by simpa [InstrArg.value] using hbs)

lemma instr_sound : ∀ fuel : Nat, SoundP (instr fuel) := by
  intro fuel
  induction fuel with
  | zero =>
    intro cs pos i rest pos2 errs h
    simp [instr] at h
  | succ f ih =>
    intro cs pos i rest pos2 errs h
    unfold instr at h
    cases hid : ppadded instr_ident cs pos with
    | fail e => rw [hid] at h; simp at h
    | ok id r2 q2 e2 =>
      rw [hid] at h
      rcases hargs : psepBy (instr_arg (instr f) f) (psep f) f r2 q2
        with ⟨args, r3, q3, e3⟩
      simp only [hargs] at h
      injection h with h1 h2 h3 h4
      subst h1
      obtain ⟨cs2, u2, u3, u4, hident⟩ := ppadded_inv hid
      refine ValidInstr.mk _ _ _ (instr_ident_ok hident) ?_
      intro a ha bs hbs i2 hi2
      obtain ⟨cs3, w2, w3, w4, w5, hargok⟩ :=
        psepBy_mem (instr_arg (instr f) f) (psep f) f r2 q2 a
          (by rw [hargs]; exact ha)
      exact instr_arg_sound ih hargok bs hbs i2 hi2

end InvariantLemmas

section InvariantClaims

/-- C8: every instruction in the AST returned by parse, including those
nested inside Block arguments at any depth, has a non-empty mnemonic whose
first character is an ASCII uppercase letter, digit, hash or underscore
and whose remaining characters also admit the colon. -/
theorem C8_mnemonic_invariant :
    ∀ (s : String) (l : List Instr), (parse s).output = some l →
      ∀ i ∈ l, ValidInstr i := by
  intro s l hout i hi
  rcases hp : parser (s.data.length + 2) s.data 0 with ⟨instrs, rest, pos, errs⟩
  have hl : l = instrs := by
    cases rest with
    | nil =>
      have : parse s = ⟨some instrs, errs⟩ := by simp only [parse, hp]
      rw [this] at hout
      exact (Option.some_inj.mp hout).symm
    | cons c r =>
      have : parse s = ⟨none, errs ++
          [.expectedFound ⟨pos, pos + 1⟩ [none] (some c)]⟩ := by
        simp only [parse, hp]
      rw [this] at hout
      simp at hout
  subst hl
  unfold parser at hp
  exact prepeated_sound (ppadded_sound (instr_sound (s.data.length + 2)))
    (s.data.length + 2) s.data 0 i (by rw [hp]; exact hi)

/-- C8 witness: the instruction parsed from the input NOP is a valid tree
(its mnemonic satisfies the identifier invariant). -/
theorem C8_witness : ValidInstr (.mk ⟨0, 3⟩ "NOP" []) :=
  C8_mnemonic_invariant "NOP" [.mk ⟨0, 3⟩ "NOP" []] rfl
    (.mk ⟨0, 3⟩ "NOP" []) (List.mem_singleton.mpr rfl)

end InvariantClaims

end Ast2
